import Mathlib

/-!
Verification of the filename parsing, generation and tree-renaming logic of
`rename_htmlimg.py`.  Filenames and paths are modelled as `List Char`;
Python floats are modelled at exact decimal semantics by an exact mantissa/exponent pair.

Regex notes (the source uses `re.match` with two fixed patterns):

* `pattern1 = ^([^,]+),(-?\d+\.?\d*),(-?\d+\.?\d*),` : the first group is a
  greedy run of non-comma characters followed by a literal comma, so it matches
  exactly the text up to the first comma (backtracking to a shorter group would
  force the literal comma to match a non-comma character).  Each number group
  consumes only characters from `[-.0-9]`, never a comma, and must be followed
  by a literal comma, hence it matches exactly the text up to the next comma,
  and succeeds iff that segment is in the language of `-?\d+\.?\d*`.  The match
  is anchored at the start only; trailing text is ignored.

* `pattern2 = ^satellite_(-?\d+\.?\d*)_(-?\d+\.?\d*)$` : both number groups
  consume only `[-.0-9]`, never an underscore, so the literal `_` between them
  must match the first underscore of the remaining text and the match succeeds
  iff the text after `satellite_` consists of exactly one underscore separating
  two strings of the number language.

The matchers below implement exactly these deterministic residuals of the two
regexes.  `\d` is modelled as the ASCII digits (the filenames the tool is
designed for are ASCII).
-/

namespace RenameImg

/-- Split a character list at the first occurrence of `t`: returns the (t-free)
part before the first `t` and the part after it, or `none` when `t` does not
occur.  This is the deterministic behaviour of a `[^t]*`-style group followed
by the literal `t` in the source regexes. -/
def splitChar (t : Char) : List Char → Option (List Char × List Char)
  | [] => none
  | c :: cs =>
      if c = t then some ([], cs)
      else
        match splitChar t cs with
        | none => none
        | some (a, b) => some (c :: a, b)

/-- After the leading digit run of `\d+\.?\d*`, the rest must be empty or a
dot followed by digits only. -/
def fracOk (rest : List Char) : Bool :=
  match rest with
  | [] => true
  | c :: r => c = '.' && r.all (fun c => c.isDigit)

/-- Language of `\d+\.?\d*` (a decimal literal without sign): one or more
digits, then optionally a dot followed by zero or more digits. -/
def numLangCore (cs : List Char) : Bool :=
  !(cs.takeWhile (fun c => c.isDigit)).isEmpty
    && fracOk (cs.dropWhile (fun c => c.isDigit))

/-- Language of `-?\d+\.?\d*`, the number groups of both source regexes. -/
def numLang (cs : List Char) : Bool :=
  match cs with
  | c :: t => if c = '-' then numLangCore t else numLangCore (c :: t)
  | [] => false

/-- Value of a digit string read in base 10 (`int`-style accumulation). -/
def digitsToNat (cs : List Char) : ℕ :=
  cs.foldl (fun a c => 10 * a + (c.toNat - 48)) 0

/-- Optional leading sign of a numeric literal, as accepted by Python
`float()`: `-` or `+`, returned together with the remaining characters. -/
def stripSign (cs : List Char) : Bool × List Char :=
  match cs with
  | c :: t => if c = '-' then (true, t) else if c = '+' then (false, t) else (false, cs)
  | [] => (false, [])

/-- Exact decimal number `mant / 10 ^ fexp`: the model of a Python float
produced by `float()` on a decimal literal.  The source never compares these
values — it only parses and formats them — so the (possibly non-reduced)
representation is observationally equivalent to the float value at exact
decimal semantics. -/
structure Dec where
  mant : ℤ
  fexp : ℕ
deriving DecidableEq

/-- Unsigned part of the Python `float()` conversion restricted to plain
decimal literals `\d*(\.\d*)?` with at least one digit, read at exact decimal
semantics.  (Python `float` additionally accepts exponents, infinities and
whitespace, none of which the source regexes can produce.) -/
def floatNN (b : List Char) : Option Dec :=
  let ds := b.takeWhile (fun c => c.isDigit)
  match b.dropWhile (fun c => c.isDigit) with
  | [] => if ds.isEmpty then none else some ⟨(digitsToNat ds : ℤ), 0⟩
  | c :: r =>
      if c = '.' && (r.dropWhile (fun c => c.isDigit)).isEmpty
          && (!ds.isEmpty || !(r.takeWhile (fun c => c.isDigit)).isEmpty) then
        some ⟨(digitsToNat ds * 10 ^ (r.takeWhile (fun c => c.isDigit)).length
            + digitsToNat (r.takeWhile (fun c => c.isDigit)) : ℤ),
          (r.takeWhile (fun c => c.isDigit)).length⟩
      else none

/-- Python `float()` on plain signed decimal literals, at exact decimal
semantics. -/
def floatVal (cs : List Char) : Option Dec :=
  (floatNN (stripSign cs).2).map
    (fun v => if (stripSign cs).1 then ⟨-v.mant, v.fexp⟩ else v)

/-- Numeric value used by `parse_filename` for a matched group.  The source
calls `float(...)` directly; the regex guarantees the group is a valid decimal
literal (proved below), so the default value of this total wrapper is never
used on strings produced by the matchers. -/
def decVal (cs : List Char) : Dec := (floatVal cs).getD ⟨0, 0⟩

/-- Decimal digit character, `0`..`9`. -/
def digitChar (n : ℕ) : Char :=
  if n = 0 then '0' else if n = 1 then '1' else if n = 2 then '2'
  else if n = 3 then '3' else if n = 4 then '4' else if n = 5 then '5'
  else if n = 6 then '6' else if n = 7 then '7' else if n = 8 then '8' else '9'

/-- Base-10 digit characters of a natural number, most significant first
(fuel-based recursion; fuel `n + 1` always suffices). -/
def natDigitsAux : ℕ → ℕ → List Char
  | 0, _ => []
  | fuel + 1, n =>
      if n < 10 then [digitChar n]
      else natDigitsAux fuel (n / 10) ++ [digitChar (n % 10)]

/-- Base-10 rendering of a natural number. -/
def natDigits (n : ℕ) : List Char := natDigitsAux (n + 1) n

/-- Left-pad a digit string with zeros up to length `k`. -/
def padZeros (k : ℕ) (cs : List Char) : List Char :=
  List.replicate (k - cs.length) '0' ++ cs

/-- Remove trailing `'0'` characters but keep at least one character. -/
def stripZerosKeepOne (cs : List Char) : List Char :=
  if (cs.reverse.dropWhile (fun c => c = '0')).isEmpty then ['0']
  else (cs.reverse.dropWhile (fun c => c = '0')).reverse

/-- Decimal rendering of a non-negative rational with up to 30 fractional
digits, trailing zeros stripped, always keeping one fractional digit.  This
models Python `repr`/`str` of a non-negative float in the non-exponent range
(`repr(37.0) = "37.0"`, `repr(37.788169) = "37.788169"`), which is what the
f-string `f"{lat}_{lon}"` in the source produces.  (Pythons exponent form
for magnitudes below 1e-4 or at/above 1e16, and doubles needing more than 30
digits, are outside the range this model is used for.) -/
def pyReprNN (d : Dec) : List Char :=
  let m := d.mant.natAbs * 10 ^ 30 / 10 ^ d.fexp
  natDigits (m / 10 ^ 30) ++ '.' :: stripZerosKeepOne (padZeros 30 (natDigits (m % 10 ^ 30)))

/-- Decimal rendering of a decimal value, modelling Python `repr` of a float
in the non-exponent range (sign included). -/
def pyRepr (d : Dec) : List Char :=
  if d.mant < 0 then '-' :: pyReprNN d else pyReprNN d

/-- The identifier post-processing of pattern 2 in the source:
`.replace('.', '').replace('-', 'n')` — every dot removed, then every dash
replaced by the letter `n`. -/
def sanitize (cs : List Char) : List Char :=
  (cs.filter (fun c => c ≠ '.')).map (fun c => if c = '-' then 'n' else c)

/-- Round `a / b` to the nearest natural number, ties to even — the rounding
used when formatting with `:.6f`. -/
def roundHalfEven (a b : ℕ) : ℕ :=
  if 2 * (a % b) > b || (2 * (a % b) == b && (a / b) % 2 == 1) then a / b + 1
  else a / b

/-- Fixed-point rendering of the absolute value of a decimal number with
exactly six digits after the decimal point (`:.6f` on the magnitude). -/
def fmt6NN (d : Dec) : List Char :=
  let n := roundHalfEven (d.mant.natAbs * 10 ^ 6) (10 ^ d.fexp)
  natDigits (n / 10 ^ 6) ++ '.' :: padZeros 6 (natDigits (n % 10 ^ 6))

/-- Python `f"{x:.6f}"` at exact decimal semantics: exactly six digits after
the decimal point, standard (half-even) rounding, sign preserved when
negative.  (The IEEE negative zero, unrepresentable in the exact model, is
the one corner where Python would print a `-0.000000` sign.) -/
def fmt6 (d : Dec) : List Char :=
  if d.mant < 0 then '-' :: fmt6NN d else fmt6NN d

/-- Structured record returned by `parse_filename` (the dict
`{'id', 'lat', 'lon', 'is_query', 'ext'}` of the source). -/
structure ParsedImageInfo where
  id : List Char
  lat : Dec
  lon : Dec
  is_query : Bool
  ext : List Char
deriving DecidableEq

/-- Model of `os.path.splitext` on a bare filename (no directory separators):
split at the last dot, unless every character before that dot is itself a dot
(leading dots do not start an extension). -/
def splitext (cs : List Char) : List Char × List Char :=
  let r := cs.reverse
  let re := r.takeWhile (fun c => c ≠ '.')
  match r.dropWhile (fun c => c ≠ '.') with
  | [] => (cs, [])
  | _ :: revBase =>
      if revBase.all (fun c => c = '.') then (cs, [])
      else (revBase.reverse, '.' :: re.reverse)

/-- Matcher for `pattern1 = ^([^,]+),(-?\d+\.?\d*),(-?\d+\.?\d*),` (see the
regex notes in the file header): three captured groups delimited by the first
three commas, the first non-empty, the second and third in the number
language; trailing text after the third comma is ignored. -/
def match1 (cs : List Char) : Option (List Char × List Char × List Char) :=
  match splitChar ',' cs with
  | none => none
  | some (g1, r1) =>
      if g1.isEmpty then none
      else
        match splitChar ',' r1 with
        | none => none
        | some (g2, r2) =>
            if !numLang g2 then none
            else
              match splitChar ',' r2 with
              | none => none
              | some (g3, _) => if numLang g3 then some (g1, g2, g3) else none

/-- Consume an expected literal character sequence from the front of a list,
returning the remainder on success. -/
def dropLit : List Char → List Char → Option (List Char)
  | [], cs => some cs
  | _ :: _, [] => none
  | l :: ls, c :: cs => if c = l then dropLit ls cs else none

/-- The literal `satellite_` of `pattern2`. -/
def satLit : List Char :=
  's' :: 'a' :: 't' :: 'e' :: 'l' :: 'l' :: 'i' :: 't' :: 'e' :: '_' :: []

/-- Matcher for `pattern2 = ^satellite_(-?\d+\.?\d*)_(-?\d+\.?\d*)$` (see the
regex notes in the file header): the whole input must be the literal
`satellite_` followed by two number-language groups separated by exactly one
underscore. -/
def match2 (cs : List Char) : Option (List Char × List Char) :=
  match dropLit satLit cs with
  | none => none
  | some body =>
      match splitChar '_' body with
      | none => none
      | some (s1, s2) =>
          if numLang s1 && numLang s2 then some (s1, s2) else none

/-- Model of `parse_filename`: strip the extension with `splitext`, try
`pattern1` (query images), then `pattern2` (satellite/reference images); on
pattern 2 the identifier is synthesized from the two float values as
`f"{lat}_{lon}".replace('.', '').replace('-', 'n')`. -/
def parse_filename (filename : List Char) : Option ParsedImageInfo :=
  match match1 (splitext filename).1 with
  | some (g1, g2, g3) =>
      some ⟨g1, decVal g2, decVal g3, true, (splitext filename).2⟩
  | none =>
      match match2 (splitext filename).1 with
      | some (s1, s2) =>
          some ⟨sanitize (pyRepr (decVal s1) ++ '_' :: pyRepr (decVal s2)),
            decVal s1, decVal s2, false, (splitext filename).2⟩
      | none => none

/-- The same parser with the two patterns tried in the opposite order, used to
state that the result of `parse_filename` does not depend on the order in
which the patterns are tried. -/
def parse_filename_alt (filename : List Char) : Option ParsedImageInfo :=
  match match2 (splitext filename).1 with
  | some (s1, s2) =>
      some ⟨sanitize (pyRepr (decVal s1) ++ '_' :: pyRepr (decVal s2)),
        decVal s1, decVal s2, false, (splitext filename).2⟩
  | none =>
      match match1 (splitext filename).1 with
      | some (g1, g2, g3) =>
          some ⟨g1, decVal g2, decVal g3, true, (splitext filename).2⟩
      | none => none

/-- Model of `generate_new_filename`:
`f"_{info['id']}{query_suffix}@{lat:.6f}@{lon:.6f}@{status}{info['ext']}"`. -/
def generate_new_filename (info : ParsedImageInfo) (isSuccess : Bool) : List Char :=
  '_' :: info.id
    ++ (if info.is_query then "_query".toList else [])
    ++ '@' :: fmt6 info.lat
    ++ '@' :: fmt6 info.lon
    ++ '@' :: (if isSuccess then "success".toList else "failure".toList)
    ++ info.ext

/-- The part of a generated filename before the copied-over extension. -/
def genCore (info : ParsedImageInfo) (isSuccess : Bool) : List Char :=
  '_' :: info.id
    ++ (if info.is_query then "_query".toList else [])
    ++ '@' :: fmt6 info.lat
    ++ '@' :: fmt6 info.lon
    ++ '@' :: (if isSuccess then "success".toList else "failure".toList)

/-- Counters kept by `rename_images_in_folder`: `total_files`,
`renamed_files`, `skipped_files`. -/
structure RunStats where
  total : ℕ
  renamed : ℕ
  skipped : ℕ
deriving DecidableEq

/-- One eligible file of the tree walk: its parent directory, its name and an
oracle telling whether the underlying filesystem rename would succeed for it
(permissions, races, I/O — external to the program). -/
structure FileEntry where
  parent : List Char
  name : List Char
  renameOk : Bool
deriving DecidableEq

/-- A path `parent / name`. -/
def joinPath (d n : List Char) : List Char := d ++ '/' :: n

/-- The per-file body of the `rglob` loop of `rename_images_in_folder`,
acting on the pair of the filesystem (the set of existing paths, as a list)
and the statistics counters: count the file, parse it (skip on no match),
generate the destination, skip on destination collision, then either preview
(dry run), rename (moving the source path to the destination path in the
filesystem) or, when the rename fails, catch the error and skip. -/
def processFile (dryRun stS : Bool) (acc : List (List Char) × RunStats)
    (f : FileEntry) : List (List Char) × RunStats :=
  match parse_filename f.name with
  | none => (acc.1, ⟨acc.2.total + 1, acc.2.renamed, acc.2.skipped + 1⟩)
  | some info =>
      let newPath := joinPath f.parent (generate_new_filename info stS)
      let srcPath := joinPath f.parent f.name
      if newPath ∈ acc.1 ∧ newPath ≠ srcPath then
        (acc.1, ⟨acc.2.total + 1, acc.2.renamed, acc.2.skipped + 1⟩)
      else if dryRun then
        (acc.1, ⟨acc.2.total + 1, acc.2.renamed + 1, acc.2.skipped⟩)
      else if f.renameOk then
        (newPath :: acc.1.erase srcPath, ⟨acc.2.total + 1, acc.2.renamed + 1, acc.2.skipped⟩)
      else
        (acc.1, ⟨acc.2.total + 1, acc.2.renamed, acc.2.skipped + 1⟩)

/-- Fold of `processFile` over a list of eligible files from a given
filesystem/statistics state. -/
def runWalkFrom (dryRun stS : Bool) (acc : List (List Char) × RunStats)
    (files : List FileEntry) : List (List Char) × RunStats :=
  files.foldl (processFile dryRun stS) acc

/-- The tree walk of `rename_images_in_folder` over the snapshot list of
eligible files (files under the root whose suffix is one of the six image
extensions), starting from zeroed counters.  `stS` models
`default_status == 'success'`. -/
def runWalk (dryRun stS : Bool) (fs : List (List Char)) (files : List FileEntry) :
    List (List Char) × RunStats :=
  runWalkFrom dryRun stS (fs, ⟨0, 0, 0⟩) files

/-- Model of `rename_images_in_folder` including the existence check on the
root: a missing root reports an error and does no work at all (modelled as
`none`); otherwise the whole walk runs. -/
def rename_images_in_folder (rootExists dryRun stS : Bool) (fs : List (List Char))
    (files : List FileEntry) : Option (List (List Char) × RunStats) :=
  if rootExists then some (runWalk dryRun stS fs files) else none

/-- Does a file pass the parse and collision checks (and hence get counted as
renamed / would-be-renamed) against a fixed filesystem? -/
def passes (stS : Bool) (fs : List (List Char)) (f : FileEntry) : Bool :=
  match parse_filename f.name with
  | none => false
  | some info =>
      if joinPath f.parent (generate_new_filename info stS) ∈ fs ∧
          joinPath f.parent (generate_new_filename info stS) ≠ joinPath f.parent f.name
      then false else true

/-! ## Helper lemmas about list scanning -/

theorem takeWhile_all_eq {p : Char → Bool} :
    ∀ l : List Char, l.all p = true → l.takeWhile p = l := by
  intro l h
  induction l with
  | nil => rfl
  | cons c t ih =>
      simp only [List.all_cons, Bool.and_eq_true] at h
      simp [List.takeWhile_cons, h.1, ih h.2]

theorem dropWhile_all_nil {p : Char → Bool} :
    ∀ l : List Char, l.all p = true → l.dropWhile p = [] := by
  intro l h
  induction l with
  | nil => rfl
  | cons c t ih =>
      simp only [List.all_cons, Bool.and_eq_true] at h
      simp [List.dropWhile_cons, h.1, ih h.2]

theorem takeWhile_append_all {p : Char → Bool} :
    ∀ (l1 l2 : List Char), l1.all p = true →
      (l1 ++ l2).takeWhile p = l1 ++ l2.takeWhile p := by
  intro l1 l2 h
  induction l1 with
  | nil => rfl
  | cons c t ih =>
      simp only [List.all_cons, Bool.and_eq_true] at h
      simp [List.takeWhile_cons, h.1, ih h.2]

theorem dropWhile_append_all {p : Char → Bool} :
    ∀ (l1 l2 : List Char), l1.all p = true →
      (l1 ++ l2).dropWhile p = l2.dropWhile p := by
  intro l1 l2 h
  induction l1 with
  | nil => rfl
  | cons c t ih =>
      simp only [List.all_cons, Bool.and_eq_true] at h
      simp [List.dropWhile_cons, h.1, ih h.2]

theorem dropWhile_head_false {p : Char → Bool} :
    ∀ (l : List Char) (c : Char) (t : List Char),
      l.dropWhile p = c :: t → p c = false := by
  intro l
  induction l with
  | nil => intro c t h; simp [List.dropWhile] at h
  | cons a l ih =>
      intro c t h
      by_cases ha : p a
      · exact ih c t (by simpa [List.dropWhile_cons, ha] using h)
      · rw [List.dropWhile_cons_of_neg ha] at h
        injection h with h1 h2
        subst h1
        simpa using ha

theorem mem_takeWhile_pred {p : Char → Bool} :
    ∀ (l : List Char) (c : Char), c ∈ l.takeWhile p → p c = true := by
  intro l
  induction l with
  | nil => intro c h; simp [List.takeWhile] at h
  | cons a l ih =>
      intro c h
      by_cases ha : p a
      · rw [List.takeWhile_cons_of_pos ha] at h
        rcases List.mem_cons.mp h with rfl | h
        · exact ha
        · exact ih c h
      · rw [List.takeWhile_cons_of_neg ha] at h
        simp at h

theorem mem_dropWhile_mem {p : Char → Bool} :
    ∀ (l : List Char) (c : Char), c ∈ l.dropWhile p → c ∈ l := by
  intro l c h
  exact (List.dropWhile_sublist p).mem h

/-! ## splitChar lemmas -/

theorem splitChar_eq {t : Char} :
    ∀ (cs a b : List Char), splitChar t cs = some (a, b) →
      cs = a ++ t :: b ∧ t ∉ a := by
  intro cs
  induction cs with
  | nil => intro a b h; simp [splitChar] at h
  | cons c cs ih =>
      intro a b h
      by_cases hc : c = t
      · subst hc
        simp only [splitChar, if_pos rfl, Option.some.injEq, Prod.mk.injEq] at h
        obtain ⟨rfl, rfl⟩ := h
        exact ⟨rfl, by simp⟩
      · simp only [splitChar, if_neg hc] at h
        match hsc : splitChar t cs with
        | none => rw [hsc] at h; simp at h
        | some (a', b') =>
            rw [hsc] at h
            simp only [Option.some.injEq, Prod.mk.injEq] at h
            obtain ⟨rfl, rfl⟩ := h
            obtain ⟨heq, hmem⟩ := ih a' b' hsc
            refine ⟨by simp [heq], ?_⟩
            intro hin
            rcases List.mem_cons.mp hin with rfl | hin
            · exact hc rfl
            · exact hmem hin

theorem splitChar_append {t : Char} :
    ∀ (a b : List Char), t ∉ a → splitChar t (a ++ t :: b) = some (a, b) := by
  intro a
  induction a with
  | nil => intro b _; simp [splitChar]
  | cons c a ih =>
      intro b h
      have hc : ¬ c = t := fun hc => h (by simp [hc])
      have ha : t ∉ a := fun ha => h (by simp [ha])
      simp only [List.cons_append, splitChar, if_neg hc, List.append_eq]
      rw [ih b ha]

theorem splitChar_mem {t : Char} {cs a b : List Char}
    (h : splitChar t cs = some (a, b)) : t ∈ cs := by
  obtain ⟨heq, -⟩ := splitChar_eq cs a b h
  rw [heq]; simp

/-! ## Character facts -/

theorem digit_ne {c : Char} (h : c.isDigit = true) :
    c ≠ ',' ∧ c ≠ '.' ∧ c ≠ '-' ∧ c ≠ '_' ∧ c ≠ '/' ∧ c ≠ '@' ∧ c ≠ 's' := by
  refine ⟨?_, ?_, ?_, ?_, ?_, ?_, ?_⟩ <;>
    · rintro rfl; revert h; decide

theorem digitChar_isDigit (n : ℕ) : (digitChar n).isDigit = true := by
  unfold digitChar
  split_ifs <;> decide

/-! ## numLang lemmas -/

theorem fracOk_chars {l : List Char} (h : fracOk l = true) :
    ∀ c ∈ l, c.isDigit = true ∨ c = '.' := by
  intro c hc
  rcases l with - | ⟨c0, r⟩
  · simp at hc
  · unfold fracOk at h
    simp only [Bool.and_eq_true, decide_eq_true_eq] at h
    obtain ⟨rfl, hall⟩ := h
    rcases List.mem_cons.mp hc with rfl | hin
    · exact Or.inr rfl
    · exact Or.inl (by simpa using List.all_eq_true.mp hall c hin)

theorem numLangCore_chars {cs : List Char} (h : numLangCore cs = true) :
    ∀ c ∈ cs, c.isDigit = true ∨ c = '.' := by
  intro c hc
  unfold numLangCore at h
  simp only [Bool.and_eq_true] at h
  obtain ⟨-, h2⟩ := h
  have hsplit : cs = cs.takeWhile (fun c => c.isDigit) ++ cs.dropWhile (fun c => c.isDigit) :=
    (List.takeWhile_append_dropWhile ..).symm
  rw [hsplit] at hc
  rcases List.mem_append.mp hc with hin | hin
  · exact Or.inl (mem_takeWhile_pred _ c hin)
  · exact fracOk_chars h2 c hin

theorem numLang_chars {cs : List Char} (h : numLang cs = true) :
    ∀ c ∈ cs, c.isDigit = true ∨ c = '.' ∨ c = '-' := by
  intro c hc
  rcases cs with - | ⟨c0, t⟩
  · simp at hc
  · have h' : (if c0 = '-' then numLangCore t else numLangCore (c0 :: t)) = true := h
    by_cases h0 : c0 = '-'
    · rw [if_pos h0] at h'
      rcases List.mem_cons.mp hc with rfl | hin
      · exact Or.inr (Or.inr h0)
      · rcases numLangCore_chars h' c hin with hd | hd
        · exact Or.inl hd
        · exact Or.inr (Or.inl hd)
    · rw [if_neg h0] at h'
      rcases numLangCore_chars h' c hc with hd | hd
      · exact Or.inl hd
      · exact Or.inr (Or.inl hd)

theorem numLang_no_comma {cs : List Char} (h : numLang cs = true) : ',' ∉ cs := by
  intro hc
  rcases numLang_chars h ',' hc with hd | hd | hd
  · exact absurd hd (by decide)
  · exact absurd hd (by decide)
  · exact absurd hd (by decide)

theorem numLang_no_underscore {cs : List Char} (h : numLang cs = true) : '_' ∉ cs := by
  intro hc
  rcases numLang_chars h '_' hc with hd | hd | hd
  · exact absurd hd (by decide)
  · exact absurd hd (by decide)
  · exact absurd hd (by decide)

/-! ## Character sets of the rendering functions -/

theorem natDigitsAux_chars :
    ∀ (fuel n : ℕ) (c : Char), c ∈ natDigitsAux fuel n → c.isDigit = true := by
  intro fuel
  induction fuel with
  | zero => intro n c h; simp [natDigitsAux] at h
  | succ fuel ih =>
      intro n c h
      unfold natDigitsAux at h
      by_cases hn : n < 10
      · rw [if_pos hn] at h
        rcases List.mem_singleton.mp h with rfl
        exact digitChar_isDigit n
      · rw [if_neg hn] at h
        rcases List.mem_append.mp h with hin | hin
        · exact ih (n / 10) c hin
        · rcases List.mem_singleton.mp hin with rfl
          exact digitChar_isDigit (n % 10)

theorem natDigits_chars {n : ℕ} {c : Char} (h : c ∈ natDigits n) : c.isDigit = true :=
  natDigitsAux_chars (n + 1) n c h

theorem padZeros_chars {k : ℕ} {l : List Char} {c : Char} (h : c ∈ padZeros k l) :
    c = '0' ∨ c ∈ l := by
  unfold padZeros at h
  rcases List.mem_append.mp h with hin | hin
  · exact Or.inl (List.eq_of_mem_replicate hin)
  · exact Or.inr hin

theorem stripZeros_chars {l : List Char} {c : Char} (h : c ∈ stripZerosKeepOne l) :
    c = '0' ∨ c ∈ l := by
  unfold stripZerosKeepOne at h
  split at h
  · exact Or.inl (List.mem_singleton.mp h)
  · refine Or.inr ?_
    have h1 : c ∈ l.reverse.dropWhile (fun c => c = '0') := List.mem_reverse.mp h
    exact List.mem_reverse.mp (mem_dropWhile_mem _ c h1)

theorem pyReprNN_chars {d : Dec} {c : Char} (h : c ∈ pyReprNN d) :
    c.isDigit = true ∨ c = '.' := by
  unfold pyReprNN at h
  rcases List.mem_append.mp h with hin | hin
  · exact Or.inl (natDigits_chars hin)
  · rcases List.mem_cons.mp hin with rfl | hin
    · exact Or.inr rfl
    · rcases stripZeros_chars hin with rfl | hin
      · exact Or.inl (by decide)
      · rcases padZeros_chars hin with rfl | hin
        · exact Or.inl (by decide)
        · exact Or.inl (natDigits_chars hin)

theorem pyRepr_chars {d : Dec} {c : Char} (h : c ∈ pyRepr d) :
    c.isDigit = true ∨ c = '.' ∨ c = '-' := by
  unfold pyRepr at h
  split at h
  · rcases List.mem_cons.mp h with rfl | hin
    · exact Or.inr (Or.inr rfl)
    · rcases pyReprNN_chars hin with hd | hd
      · exact Or.inl hd
      · exact Or.inr (Or.inl hd)
  · rcases pyReprNN_chars h with hd | hd
    · exact Or.inl hd
    · exact Or.inr (Or.inl hd)

theorem fmt6NN_chars {d : Dec} {c : Char} (h : c ∈ fmt6NN d) :
    c.isDigit = true ∨ c = '.' := by
  unfold fmt6NN at h
  rcases List.mem_append.mp h with hin | hin
  · exact Or.inl (natDigits_chars hin)
  · rcases List.mem_cons.mp hin with rfl | hin
    · exact Or.inr rfl
    · rcases padZeros_chars hin with rfl | hin
      · exact Or.inl (by decide)
      · exact Or.inl (natDigits_chars hin)

theorem fmt6_chars {d : Dec} {c : Char} (h : c ∈ fmt6 d) :
    c.isDigit = true ∨ c = '.' ∨ c = '-' := by
  unfold fmt6 at h
  split at h
  · rcases List.mem_cons.mp h with rfl | hin
    · exact Or.inr (Or.inr rfl)
    · rcases fmt6NN_chars hin with hd | hd
      · exact Or.inl hd
      · exact Or.inr (Or.inl hd)
  · rcases fmt6NN_chars h with hd | hd
    · exact Or.inl hd
    · exact Or.inr (Or.inl hd)

theorem fmt6_no_comma {d : Dec} : ',' ∉ fmt6 d := by
  intro h
  rcases fmt6_chars h with hd | hd | hd
  · exact absurd hd (by decide)
  · exact absurd hd (by decide)
  · exact absurd hd (by decide)

/-! ## sanitize lemmas -/

theorem sanitize_no_dot (s : List Char) : '.' ∉ sanitize s := by
  intro h
  unfold sanitize at h
  obtain ⟨c, hc, he⟩ := List.mem_map.mp h
  by_cases hdash : c = '-'
  · rw [if_pos hdash] at he; exact absurd he (by decide)
  · rw [if_neg hdash] at he
    subst he
    exact absurd (List.of_mem_filter hc) (by simp)

theorem sanitize_no_dash (s : List Char) : '-' ∉ sanitize s := by
  intro h
  unfold sanitize at h
  obtain ⟨c, hc, he⟩ := List.mem_map.mp h
  by_cases hdash : c = '-'
  · rw [if_pos hdash] at he; exact absurd he (by decide)
  · rw [if_neg hdash] at he
    exact hdash he

theorem mem_sanitize {s : List Char} {c : Char} (h : c ∈ sanitize s) :
    c = 'n' ∨ c ∈ s := by
  unfold sanitize at h
  obtain ⟨c', hc', he⟩ := List.mem_map.mp h
  by_cases hdash : c' = '-'
  · rw [if_pos hdash] at he; exact Or.inl he.symm
  · rw [if_neg hdash] at he
    subst he
    exact Or.inr (List.mem_of_mem_filter hc')

/-! ## splitext lemmas -/

theorem splitext_append (cs : List Char) : (splitext cs).1 ++ (splitext cs).2 = cs := by
  simp only [splitext]
  rcases hdw : cs.reverse.dropWhile (fun c => decide (c ≠ '.')) with - | ⟨c0, revBase⟩
  · simp
  · have hc0 : c0 = '.' := by
      have hpc := dropWhile_head_false cs.reverse c0 revBase hdw
      simpa using hpc
    have hsplit : cs.reverse.takeWhile (fun c => decide (c ≠ '.')) ++ (c0 :: revBase)
        = cs.reverse := by
      rw [← hdw]; exact List.takeWhile_append_dropWhile ..
    by_cases hall : revBase.all (fun c => decide (c = '.')) = true
    · simp [hall]
    · simp only [hall, if_false, Bool.false_eq_true]
      subst hc0
      have : revBase.reverse ++ '.' :: (cs.reverse.takeWhile (fun c => decide (c ≠ '.'))).reverse
          = (cs.reverse.takeWhile (fun c => decide (c ≠ '.')) ++ ('.' :: revBase)).reverse := by
        simp
      rw [this, hsplit, List.reverse_reverse]

theorem splitext_snd_shape (cs : List Char) :
    (splitext cs).2 = [] ∨ ∃ t, (splitext cs).2 = '.' :: t ∧ '.' ∉ t := by
  simp only [splitext]
  rcases hdw : cs.reverse.dropWhile (fun c => decide (c ≠ '.')) with - | ⟨c0, revBase⟩
  · exact Or.inl rfl
  · by_cases hall : revBase.all (fun c => decide (c = '.')) = true
    · simp [hall]
    · simp only [hall, if_false, Bool.false_eq_true]
      refine Or.inr ⟨(cs.reverse.takeWhile (fun c => decide (c ≠ '.'))).reverse, rfl, ?_⟩
      intro hmem
      have hin := List.mem_reverse.mp hmem
      have hp := mem_takeWhile_pred _ '.' hin
      simp at hp

theorem splitext_concat {A t : List Char} (ht : '.' ∉ t) (c0 : Char) (hc0 : c0 ∈ A)
    (hc0ne : ¬ c0 = '.') : splitext (A ++ '.' :: t) = (A, '.' :: t) := by
  have hall : t.reverse.all (fun c => decide (c ≠ '.')) = true := by
    rw [List.all_eq_true]
    intro c hc
    have hct : c ∈ t := List.mem_reverse.mp hc
    simp only [decide_eq_true_eq, ne_eq]
    rintro rfl
    exact ht hct
  have hrev : (A ++ '.' :: t).reverse = t.reverse ++ '.' :: A.reverse := by
    simp
  have hdw : (A ++ '.' :: t).reverse.dropWhile (fun c => decide (c ≠ '.'))
      = '.' :: A.reverse := by
    rw [hrev, dropWhile_append_all _ _ hall, List.dropWhile_cons_of_neg (by simp)]
  have htw : (A ++ '.' :: t).reverse.takeWhile (fun c => decide (c ≠ '.')) = t.reverse := by
    rw [hrev, takeWhile_append_all _ _ hall, List.takeWhile_cons_of_neg (by simp)]
    simp
  have hnotall : ¬ A.reverse.all (fun c => decide (c = '.')) = true := by
    intro hA
    have := List.all_eq_true.mp hA c0 (List.mem_reverse.mpr hc0)
    exact hc0ne (by simpa using this)
  simp only [splitext, hdw, htw, hnotall, if_false, Bool.false_eq_true]
  simp

/-! ## dropLit and matcher lemmas -/

theorem dropLit_self : ∀ (lit x : List Char), dropLit lit (lit ++ x) = some x := by
  intro lit
  induction lit with
  | nil => intro x; rfl
  | cons l ls ih =>
      intro x
      simp only [List.cons_append, dropLit, if_pos rfl]
      exact ih x

theorem dropLit_eq : ∀ (lit cs body : List Char), dropLit lit cs = some body →
    cs = lit ++ body := by
  intro lit
  induction lit with
  | nil =>
      intro cs body h
      simp only [dropLit, Option.some.injEq] at h
      simp [h]
  | cons l ls ih =>
      intro cs body h
      rcases cs with - | ⟨c, cs'⟩
      · simp [dropLit] at h
      · simp only [dropLit] at h
        by_cases hc : c = l
        · rw [if_pos hc] at h
          subst hc
          simpa using ih cs' body h
        · rw [if_neg hc] at h
          exact absurd h (by simp)

theorem match2_inv {cs s1 s2 : List Char} (h : match2 cs = some (s1, s2)) :
    cs = satLit ++ (s1 ++ '_' :: s2) ∧ numLang s1 = true ∧ numLang s2 = true := by
  unfold match2 at h
  split at h
  · exact absurd h (by simp)
  · next body hdl =>
      split at h
      · exact absurd h (by simp)
      · next a b hsc =>
          split at h
          · next hn =>
              simp only [Option.some.injEq, Prod.mk.injEq] at h
              obtain ⟨rfl, rfl⟩ := h
              obtain ⟨hbody, -⟩ := splitChar_eq body _ _ hsc
              simp only [Bool.and_eq_true] at hn
              exact ⟨by rw [dropLit_eq satLit cs body hdl, hbody], hn.1, hn.2⟩
          · exact absurd h (by simp)

theorem match2_of_shape {s1 s2 : List Char} (h1 : numLang s1 = true)
    (h2 : numLang s2 = true) :
    match2 (satLit ++ (s1 ++ '_' :: s2)) = some (s1, s2) := by
  unfold match2
  simp only [dropLit_self satLit (s1 ++ '_' :: s2),
    splitChar_append s1 s2 (numLang_no_underscore h1), h1, h2]
  simp

theorem match2_none_underscore (t : List Char) : match2 ('_' :: t) = none := by
  rfl

theorem match2_none_nil : match2 [] = none := by rfl

theorem match1_comma {cs : List Char} {g : List Char × List Char × List Char}
    (h : match1 cs = some g) : ',' ∈ cs := by
  unfold match1 at h
  cases hsc : splitChar ',' cs with
  | none => rw [hsc] at h; exact absurd h (by simp)
  | some p => exact splitChar_mem hsc

theorem match1_none_of_no_comma {cs : List Char} (h : ',' ∉ cs) : match1 cs = none := by
  cases hm : match1 cs with
  | none => rfl
  | some g => exact absurd (match1_comma hm) h

theorem match2_no_comma {cs s1 s2 : List Char} (h : match2 cs = some (s1, s2)) :
    ',' ∉ cs := by
  obtain ⟨heq, hn1, hn2⟩ := match2_inv h
  rw [heq]
  intro hmem
  rcases List.mem_append.mp hmem with hin | hin
  · have : (',' : Char) ∉ satLit := by decide
    exact this hin
  · rcases List.mem_append.mp hin with hin | hin
    · exact numLang_no_comma hn1 hin
    · rcases List.mem_cons.mp hin with hu | hin
      · exact absurd hu (by decide)
      · exact numLang_no_comma hn2 hin

theorem match1_inv {cs g1 g2 g3 : List Char} (h : match1 cs = some (g1, g2, g3)) :
    ',' ∉ g1 ∧ g1 ≠ [] ∧ numLang g2 = true ∧ numLang g3 = true := by
  unfold match1 at h
  split at h
  · exact absurd h (by simp)
  · next a1 r1 hs1 =>
      split at h
      · exact absurd h (by simp)
      · next he =>
          split at h
          · exact absurd h (by simp)
          · next a2 r2 hs2 =>
              split at h
              · exact absurd h (by simp)
              · next hn2 =>
                  split at h
                  · exact absurd h (by simp)
                  · next a3 r3 hs3 =>
                      split at h
                      · next hn3 =>
                          simp only [Option.some.injEq, Prod.mk.injEq] at h
                          obtain ⟨rfl, rfl, rfl⟩ := h
                          refine ⟨(splitChar_eq cs _ _ hs1).2, ?_, ?_, hn3⟩
                          · intro hnil
                            rw [hnil] at he
                            exact he rfl
                          · simpa using hn2
                      · exact absurd h (by simp)

theorem match1_of_shape {g1 g2 g3 rest : List Char} (h1 : g1 ≠ []) (h2 : ',' ∉ g1)
    (h3 : numLang g2 = true) (h4 : numLang g3 = true) :
    match1 (g1 ++ ',' :: (g2 ++ ',' :: (g3 ++ ',' :: rest))) = some (g1, g2, g3) := by
  have hne : g1.isEmpty = false := by
    cases g1 with
    | nil => exact absurd rfl h1
    | cons c t => rfl
  unfold match1
  simp only [splitChar_append g1 _ h2, hne,
    splitChar_append g2 _ (numLang_no_comma h3), h3,
    splitChar_append g3 rest (numLang_no_comma h4), h4]
  simp

/-! ## parse_filename structural lemmas -/

theorem parse_ext {f : List Char} {info : ParsedImageInfo}
    (h : parse_filename f = some info) : info.ext = (splitext f).2 := by
  unfold parse_filename at h
  cases hm1 : match1 (splitext f).1 with
  | some g =>
      obtain ⟨g1, g2, g3⟩ := g
      rw [hm1] at h
      simp only [Option.some.injEq] at h
      rw [← h]
  | none =>
      rw [hm1] at h
      cases hm2 : match2 (splitext f).1 with
      | some p =>
          obtain ⟨s1, s2⟩ := p
          rw [hm2] at h
          simp only [Option.some.injEq] at h
          rw [← h]
      | none => rw [hm2] at h; exact absurd h (by simp)

theorem parse_id_no_comma {f : List Char} {info : ParsedImageInfo}
    (h : parse_filename f = some info) : ',' ∉ info.id := by
  unfold parse_filename at h
  cases hm1 : match1 (splitext f).1 with
  | some g =>
      obtain ⟨g1, g2, g3⟩ := g
      rw [hm1] at h
      simp only [Option.some.injEq] at h
      rw [← h]
      exact (match1_inv hm1).1
  | none =>
      rw [hm1] at h
      cases hm2 : match2 (splitext f).1 with
      | some p =>
          obtain ⟨s1, s2⟩ := p
          rw [hm2] at h
          simp only [Option.some.injEq] at h
          rw [← h]
          intro hmem
          rcases mem_sanitize hmem with hn | hin
          · exact absurd hn (by decide)
          · rcases List.mem_append.mp hin with hin | hin
            · rcases pyRepr_chars hin with hd | hd | hd
              · exact absurd hd (by decide)
              · exact absurd hd (by decide)
              · exact absurd hd (by decide)
            · rcases List.mem_cons.mp hin with hu | hin
              · exact absurd hu (by decide)
              · rcases pyRepr_chars hin with hd | hd | hd
                · exact absurd hd (by decide)
                · exact absurd hd (by decide)
                · exact absurd hd (by decide)
      | none => rw [hm2] at h; exact absurd h (by simp)

/-! ## Totality of the numeric conversion on the pattern language -/

theorem floatNN_total {b : List Char} (h : numLangCore b = true) :
    (floatNN b).isSome = true := by
  unfold numLangCore at h
  simp only [Bool.and_eq_true] at h
  obtain ⟨h1, h2⟩ := h
  simp only [Bool.not_eq_true'] at h1
  simp only [floatNN]
  split
  · simp [h1]
  · next c r hdw =>
      rw [hdw] at h2
      unfold fracOk at h2
      simp only [Bool.and_eq_true, decide_eq_true_eq] at h2
      obtain ⟨rfl, hall⟩ := h2
      have hdw2 : r.dropWhile (fun c => c.isDigit) = [] := dropWhile_all_nil r hall
      simp [hdw2, h1]

/-! ## Claim theorems -/

/-- C1: for every filename whose base name (final extension stripped) begins
with a comma-free non-empty identifier, a comma, a signed decimal number, a
comma, a second signed decimal number, and a comma, `parse_filename` returns
`isQuery = true`, the identifier verbatim, the two numbers, and the stripped
final suffix as extension; any content after that matched leading part is
ignored. -/
theorem claim_C1_patternA (fname g1 g2 g3 rest : List Char)
    (h1 : g1 ≠ []) (h2 : ',' ∉ g1) (h3 : numLang g2 = true) (h4 : numLang g3 = true)
    (hb : (splitext fname).1 = g1 ++ ',' :: (g2 ++ ',' :: (g3 ++ ',' :: rest))) :
    parse_filename fname
      = some ⟨g1, decVal g2, decVal g3, true, (splitext fname).2⟩ := by
  unfold parse_filename
  rw [hb]
  simp only [match1_of_shape h1 h2 h3 h4]

/-- Witness for C1 on the spec's example
`"abc123,37.788169,-122.400728,.jpg"`, with the numeric values evaluated. -/
theorem claim_C1_witness :
    parse_filename ("abc123,37.788169,-122.400728,.jpg".toList)
      = some ⟨"abc123".toList, ⟨37788169, 6⟩, ⟨-122400728, 6⟩, true, ".jpg".toList⟩ := by
  have h := claim_C1_patternA ("abc123,37.788169,-122.400728,.jpg".toList)
    ("abc123".toList) ("37.788169".toList) ("-122.400728".toList) []
    (by decide) (by decide) (by decide) (by decide) (by decide)
  exact h.trans (by decide)

/-- C2: for every filename whose base name is exactly
`satellite_<lat>_<lon>` with both coordinates signed decimal numbers,
`parse_filename` returns `isQuery = false` and an identifier synthesized by
joining the rendered coordinates with an underscore, removing every dot and
replacing every dash by the letter `n`; consequently the identifier contains
no `.` and no `-`. -/
theorem claim_C2_patternB (fname s1 s2 : List Char)
    (h1 : numLang s1 = true) (h2 : numLang s2 = true)
    (hb : (splitext fname).1 = satLit ++ (s1 ++ '_' :: s2)) :
    parse_filename fname
      = some ⟨sanitize (pyRepr (decVal s1) ++ '_' :: pyRepr (decVal s2)),
          decVal s1, decVal s2, false, (splitext fname).2⟩
    ∧ '.' ∉ sanitize (pyRepr (decVal s1) ++ '_' :: pyRepr (decVal s2))
    ∧ '-' ∉ sanitize (pyRepr (decVal s1) ++ '_' :: pyRepr (decVal s2)) := by
  refine ⟨?_, sanitize_no_dot _, sanitize_no_dash _⟩
  unfold parse_filename
  rw [hb]
  have hm1 : match1 (satLit ++ (s1 ++ '_' :: s2)) = none := by
    apply match1_none_of_no_comma
    intro hmem
    rcases List.mem_append.mp hmem with hin | hin
    · exact absurd hin (by decide)
    · rcases List.mem_append.mp hin with hin | hin
      · exact numLang_no_comma h1 hin
      · rcases List.mem_cons.mp hin with hu | hin
        · exact absurd hu (by decide)
        · exact numLang_no_comma h2 hin
  simp only [hm1, match2_of_shape h1 h2]

/-- Witness for C2 on the spec's example
`"satellite_37.78816344751675_-122.40075733242969.png"`, with the generated
identifier evaluated: it contains no dot and no dash. -/
theorem claim_C2_witness :
    parse_filename ("satellite_37.78816344751675_-122.40075733242969.png".toList)
      = some ⟨"3778816344751675_n12240075733242969".toList,
          decVal "37.78816344751675".toList, decVal "-122.40075733242969".toList,
          false, ".png".toList⟩ := by
  have h := claim_C2_patternB
    ("satellite_37.78816344751675_-122.40075733242969.png".toList)
    ("37.78816344751675".toList) ("-122.40075733242969".toList)
    (by decide) (by decide) (by decide)
  exact h.1.trans (by decide)

/-- C3: `generate_new_filename` returns exactly
`"_" ++ identifier ++ ("_query" when isQuery) ++ "@" ++ lat to six decimal
places ++ "@" ++ lon to six decimal places ++ "@" ++ ("success"/"failure")
++ extension`, and on the spec's example inputs the output is exactly
`"_abc123_query@37.788169@-122.400728@success.jpg"`. -/
theorem claim_C3_generate_format :
    (∀ (info : ParsedImageInfo) (s : Bool),
      generate_new_filename info s
        = '_' :: info.id
            ++ (if info.is_query then "_query".toList else [])
            ++ '@' :: fmt6 info.lat
            ++ '@' :: fmt6 info.lon
            ++ '@' :: (if s then "success".toList else "failure".toList)
            ++ info.ext)
    ∧ generate_new_filename
        ⟨"abc123".toList, ⟨37788169, 6⟩, ⟨-122400728, 6⟩, true, ".jpg".toList⟩ true
      = "_abc123_query@37.788169@-122.400728@success.jpg".toList := by
  exact ⟨fun info s => rfl, by decide⟩

/-- C9: the numeric conversion used for the regex groups is total on the
language `-?\d+\.?\d*` of the two patterns: `float` cannot fail on any string
the patterns accept. -/
theorem claim_C9_numeric_total (cs : List Char) (h : numLang cs = true) :
    (floatVal cs).isSome = true := by
  rcases cs with - | ⟨c0, t⟩
  · exact absurd h (by decide)
  · have h' : (if c0 = '-' then numLangCore t else numLangCore (c0 :: t)) = true := h
    unfold floatVal
    by_cases hneg : c0 = '-'
    · subst hneg
      rw [if_pos rfl] at h'
      have hsgn : stripSign ('-' :: t) = (true, t) := by simp [stripSign]
      rw [hsgn]
      simp [Option.isSome_map, floatNN_total h']
    · rw [if_neg hneg] at h'
      by_cases hpos : c0 = '+'
      · exfalso
        subst hpos
        unfold numLangCore at h'
        rw [List.takeWhile_cons_of_neg (by decide)] at h'
        simp at h'
      · have hsgn : stripSign (c0 :: t) = (false, c0 :: t) := by
          simp [stripSign, hneg, hpos]
        rw [hsgn]
        simp [Option.isSome_map, floatNN_total h']

/-- Witness for C9 at the concrete group `"-122.400728"`. -/
theorem claim_C9_witness :
    numLang ("-122.400728".toList) = true
      ∧ (floatVal ("-122.400728".toList)).isSome = true :=
  ⟨by decide, claim_C9_numeric_total ("-122.400728".toList) (by decide)⟩

/-- C10: no base name can match both patterns — a full pattern-2 match
contains no comma while pattern 1 requires one — so the two patterns are
mutually exclusive and the result of `parse_filename` does not depend on the
order in which the patterns are tried. -/
theorem claim_C10_mutual_exclusion :
    (∀ base : List Char, match1 base = none ∨ match2 base = none)
    ∧ (∀ f : List Char, parse_filename f = parse_filename_alt f) := by
  constructor
  · intro base
    cases hm2 : match2 base with
    | none => exact Or.inr rfl
    | some p =>
        obtain ⟨s1, s2⟩ := p
        exact Or.inl (match1_none_of_no_comma (match2_no_comma hm2))
  · intro f
    unfold parse_filename parse_filename_alt
    cases hm1 : match1 (splitext f).1 with
    | some g =>
        obtain ⟨g1, g2, g3⟩ := g
        have hm2 : match2 (splitext f).1 = none := by
          cases hm2' : match2 (splitext f).1 with
          | none => rfl
          | some p =>
              obtain ⟨s1, s2⟩ := p
              exact absurd hm1
                (by rw [match1_none_of_no_comma (match2_no_comma hm2')]; simp)
        simp [hm1, hm2]
    | none =>
        cases hm2 : match2 (splitext f).1 with
        | some p =>
            obtain ⟨s1, s2⟩ := p
            simp [hm1, hm2]
        | none => simp [hm1, hm2]

/-! ## The generated naming scheme matches neither input pattern -/

theorem gen_eq_core (info : ParsedImageInfo) (s : Bool) :
    generate_new_filename info s = genCore info s ++ info.ext := by
  unfold generate_new_filename genCore
  simp [List.append_assoc]

theorem genCore_chars {info : ParsedImageInfo} {s : Bool} {c : Char}
    (h : c ∈ genCore info s) :
    c ∈ info.id ∨ c ∈ fmt6 info.lat ∨ c ∈ fmt6 info.lon ∨ c = '_' ∨ c = '@'
      ∨ c ∈ "_query".toList ∨ c ∈ "success".toList ∨ c ∈ "failure".toList := by
  unfold genCore at h
  rcases List.mem_cons.mp h with rfl | h
  · exact Or.inr (Or.inr (Or.inr (Or.inl rfl)))
  rcases List.mem_append.mp h with h | h
  · rcases List.mem_append.mp h with h | h
    · rcases List.mem_append.mp h with h | h
      · rcases List.mem_append.mp h with h | h
        · exact Or.inl h
        · refine Or.inr (Or.inr (Or.inr (Or.inr (Or.inr (Or.inl ?_)))))
          by_cases hq : info.is_query
          · rwa [if_pos hq] at h
          · rw [if_neg hq] at h; simp at h
      · rcases List.mem_cons.mp h with rfl | h
        · exact Or.inr (Or.inr (Or.inr (Or.inr (Or.inl rfl))))
        · exact Or.inr (Or.inl h)
    · rcases List.mem_cons.mp h with rfl | h
      · exact Or.inr (Or.inr (Or.inr (Or.inr (Or.inl rfl))))
      · exact Or.inr (Or.inr (Or.inl h))
  · rcases List.mem_cons.mp h with rfl | h
    · exact Or.inr (Or.inr (Or.inr (Or.inr (Or.inl rfl))))
    · by_cases hs : s
      · rw [if_pos hs] at h
        exact Or.inr (Or.inr (Or.inr (Or.inr (Or.inr (Or.inr (Or.inl h))))))
      · rw [if_neg hs] at h
        exact Or.inr (Or.inr (Or.inr (Or.inr (Or.inr (Or.inr (Or.inr h))))))

theorem genCore_no_comma {info : ParsedImageInfo} {s : Bool} (hid : ',' ∉ info.id) :
    ',' ∉ genCore info s := by
  intro h
  rcases genCore_chars h with h | h | h | h | h | h | h | h
  · exact hid h
  · exact fmt6_no_comma h
  · exact fmt6_no_comma h
  · exact absurd h (by decide)
  · exact absurd h (by decide)
  · exact absurd h (by decide)
  · exact absurd h (by decide)
  · exact absurd h (by decide)

theorem genCore_head (info : ParsedImageInfo) (s : Bool) :
    ∃ X, genCore info s = '_' :: X := ⟨_, rfl⟩

theorem parse_none_of_base {g : List Char}
    (hc : ',' ∉ (splitext g).1)
    (hh : (splitext g).1 = [] ∨ ∃ X, (splitext g).1 = '_' :: X) :
    parse_filename g = none := by
  unfold parse_filename
  simp only [match1_none_of_no_comma hc]
  rcases hh with h0 | ⟨X, hX⟩
  · simp only [h0, match2_none_nil]
  · simp only [hX, match2_none_underscore]

theorem prefix_head_underscore {cs b e : List Char} (hbe : b ++ e = cs)
    (hcs : ∃ Y, cs = '_' :: Y) : b = [] ∨ ∃ X, b = '_' :: X := by
  obtain ⟨Y, hY⟩ := hcs
  rcases b with - | ⟨x, xs⟩
  · exact Or.inl rfl
  · rw [hY] at hbe
    simp only [List.cons_append, List.cons.injEq] at hbe
    exact Or.inr ⟨xs, by rw [hbe.1]⟩

/-- C4: applying `parse_filename` to any filename returned by
`generate_new_filename` on a record produced by `parse_filename` yields no
match: the normalized output scheme matches neither pattern, so a second run
can never re-parse (and hence never double-rename) an already renamed file. -/
theorem claim_C4_no_rematch (fname : List Char) (info : ParsedImageInfo) (s : Bool)
    (h : parse_filename fname = some info) :
    parse_filename (generate_new_filename info s) = none := by
  have hid : ',' ∉ info.id := parse_id_no_comma h
  have hext : info.ext = (splitext fname).2 := parse_ext h
  have hcore : ',' ∉ genCore info s := genCore_no_comma hid
  rw [gen_eq_core info s]
  rcases splitext_snd_shape fname with hnil | ⟨t, hsnd, ht⟩
  · rw [hext, hnil, List.append_nil]
    apply parse_none_of_base
    · intro hmem
      have hbe := splitext_append (genCore info s)
      exact hcore (by rw [← hbe]; exact List.mem_append.mpr (Or.inl hmem))
    · exact prefix_head_underscore (splitext_append (genCore info s)) (genCore_head info s)
  · rw [hext, hsnd]
    have hsp : splitext (genCore info s ++ '.' :: t) = (genCore info s, '.' :: t) := by
      obtain ⟨X, hX⟩ := genCore_head info s
      refine splitext_concat ht '_' ?_ (by decide)
      rw [hX]; exact List.mem_cons_self ..
    apply parse_none_of_base
    · rw [hsp]; exact hcore
    · rw [hsp]; exact Or.inr (genCore_head info s)

/-- Witness for C4: the record parsed from the spec's Pattern-A example,
regenerated and re-parsed, yields no match. -/
theorem claim_C4_witness :
    parse_filename (generate_new_filename
      ⟨"abc123".toList, ⟨37788169, 6⟩, ⟨-122400728, 6⟩, true, ".jpg".toList⟩ true)
      = none :=
  claim_C4_no_rematch ("abc123,37.788169,-122.400728,.jpg".toList) _ true (by decide)

/-! ## Tree-walk step lemmas -/

theorem processFile_none {dry stS : Bool} {acc : List (List Char) × RunStats}
    {f : FileEntry} (hp : parse_filename f.name = none) :
    processFile dry stS acc f
      = (acc.1, ⟨acc.2.total + 1, acc.2.renamed, acc.2.skipped + 1⟩) := by
  simp only [processFile, hp]

theorem processFile_collision {dry stS : Bool} {acc : List (List Char) × RunStats}
    {f : FileEntry} {info : ParsedImageInfo} (hp : parse_filename f.name = some info)
    (hin : joinPath f.parent (generate_new_filename info stS) ∈ acc.1)
    (hne : joinPath f.parent (generate_new_filename info stS) ≠ joinPath f.parent f.name) :
    processFile dry stS acc f
      = (acc.1, ⟨acc.2.total + 1, acc.2.renamed, acc.2.skipped + 1⟩) := by
  simp only [processFile, hp]
  rw [if_pos ⟨hin, hne⟩]

theorem processFile_preview {stS : Bool} {acc : List (List Char) × RunStats}
    {f : FileEntry} {info : ParsedImageInfo} (hp : parse_filename f.name = some info)
    (hncol : ¬(joinPath f.parent (generate_new_filename info stS) ∈ acc.1 ∧
      joinPath f.parent (generate_new_filename info stS) ≠ joinPath f.parent f.name)) :
    processFile true stS acc f
      = (acc.1, ⟨acc.2.total + 1, acc.2.renamed + 1, acc.2.skipped⟩) := by
  simp only [processFile, hp]
  rw [if_neg hncol]
  simp

theorem processFile_rename {stS : Bool} {acc : List (List Char) × RunStats}
    {f : FileEntry} {info : ParsedImageInfo} (hp : parse_filename f.name = some info)
    (hncol : ¬(joinPath f.parent (generate_new_filename info stS) ∈ acc.1 ∧
      joinPath f.parent (generate_new_filename info stS) ≠ joinPath f.parent f.name))
    (hok : f.renameOk = true) :
    processFile false stS acc f
      = (joinPath f.parent (generate_new_filename info stS)
            :: acc.1.erase (joinPath f.parent f.name),
         ⟨acc.2.total + 1, acc.2.renamed + 1, acc.2.skipped⟩) := by
  simp only [processFile, hp]
  rw [if_neg hncol, if_neg (by simp), if_pos hok]

theorem processFile_fail {stS : Bool} {acc : List (List Char) × RunStats}
    {f : FileEntry} {info : ParsedImageInfo} (hp : parse_filename f.name = some info)
    (hncol : ¬(joinPath f.parent (generate_new_filename info stS) ∈ acc.1 ∧
      joinPath f.parent (generate_new_filename info stS) ≠ joinPath f.parent f.name))
    (hok : f.renameOk = false) :
    processFile false stS acc f
      = (acc.1, ⟨acc.2.total + 1, acc.2.renamed, acc.2.skipped + 1⟩) := by
  simp only [processFile, hp]
  rw [if_neg hncol, if_neg (by simp), if_neg (by simp [hok])]

theorem processFile_counts (dry stS : Bool) (acc : List (List Char) × RunStats)
    (f : FileEntry) :
    (processFile dry stS acc f).2.total = acc.2.total + 1 ∧
    (processFile dry stS acc f).2.renamed + (processFile dry stS acc f).2.skipped
      = acc.2.renamed + acc.2.skipped + 1 := by
  cases hp : parse_filename f.name with
  | none => rw [processFile_none hp]; exact ⟨rfl, by simp; omega⟩
  | some info =>
      simp only [processFile, hp]
      split_ifs <;> exact ⟨rfl, by simp; omega⟩

theorem runWalkFrom_cons (dry stS : Bool) (acc : List (List Char) × RunStats)
    (f : FileEntry) (files : List FileEntry) :
    runWalkFrom dry stS acc (f :: files)
      = runWalkFrom dry stS (processFile dry stS acc f) files := rfl

theorem runWalkFrom_inv (dry stS : Bool) :
    ∀ (files : List FileEntry) (acc : List (List Char) × RunStats),
      acc.2.total = acc.2.renamed + acc.2.skipped →
      (runWalkFrom dry stS acc files).2.total
        = (runWalkFrom dry stS acc files).2.renamed
          + (runWalkFrom dry stS acc files).2.skipped := by
  intro files
  induction files with
  | nil => intro acc h; exact h
  | cons f fl ih =>
      intro acc h
      rw [runWalkFrom_cons]
      obtain ⟨h1, h2⟩ := processFile_counts dry stS acc f
      exact ih _ (by omega)

theorem processFile_dry (stS : Bool) (fs : List (List Char)) (st : RunStats)
    (f : FileEntry) :
    processFile true stS (fs, st) f
      = (fs, if passes stS fs f then ⟨st.total + 1, st.renamed + 1, st.skipped⟩
             else ⟨st.total + 1, st.renamed, st.skipped + 1⟩) := by
  cases hp : parse_filename f.name with
  | none =>
      rw [processFile_none hp]
      simp [passes, hp]
  | some info =>
      by_cases hc : joinPath f.parent (generate_new_filename info stS) ∈ fs ∧
          joinPath f.parent (generate_new_filename info stS) ≠ joinPath f.parent f.name
      · rw [processFile_collision hp hc.1 hc.2]
        simp only [passes, hp]
        rw [if_pos hc, if_neg (by simp)]
      · rw [processFile_preview hp hc]
        simp only [passes, hp]
        rw [if_neg hc, if_pos rfl]

theorem runWalkFrom_dry (stS : Bool) (fs : List (List Char)) :
    ∀ (files : List FileEntry) (st : RunStats),
      (runWalkFrom true stS (fs, st) files).1 = fs ∧
      (runWalkFrom true stS (fs, st) files).2.renamed
        = st.renamed + files.countP (passes stS fs) := by
  intro files
  induction files with
  | nil => intro st; exact ⟨rfl, rfl⟩
  | cons f fl ih =>
      intro st
      rw [runWalkFrom_cons, processFile_dry]
      by_cases hpass : passes stS fs f = true
      · rw [if_pos hpass]
        obtain ⟨h1, h2⟩ := ih ⟨st.total + 1, st.renamed + 1, st.skipped⟩
        refine ⟨h1, ?_⟩
        rw [h2, List.countP_cons]
        simp [hpass]
        omega
      · rw [if_neg hpass]
        obtain ⟨h1, h2⟩ := ih ⟨st.total + 1, st.renamed, st.skipped + 1⟩
        refine ⟨h1, ?_⟩
        rw [h2, List.countP_cons]
        simp only [Bool.not_eq_true] at hpass
        simp [hpass]

/-! ## Walk claim theorems -/

/-- C5: at the end of every run of the tree walk, in both modes and for
every combination of parse failures, collisions, rename successes and rename
failures, the total count of eligible files equals the renamed count plus the
skipped count. -/
theorem claim_C5_total_partition (dry stS : Bool) (fs : List (List Char))
    (files : List FileEntry) :
    (runWalk dry stS fs files).2.total
      = (runWalk dry stS fs files).2.renamed + (runWalk dry stS fs files).2.skipped :=
  runWalkFrom_inv dry stS files (fs, ⟨0, 0, 0⟩) rfl

/-- C7: a dry run never changes the filesystem, and its renamed counter
counts exactly the eligible files that pass the parse and collision checks. -/
theorem claim_C7_dry_run_frame (stS : Bool) (fs : List (List Char))
    (files : List FileEntry) :
    (runWalk true stS fs files).1 = fs ∧
    (runWalk true stS fs files).2.renamed = files.countP (passes stS fs) := by
  obtain ⟨h1, h2⟩ := runWalkFrom_dry stS fs files ⟨0, 0, 0⟩
  exact ⟨h1, by simpa using h2⟩

/-- C6 as stated is false in dry-run mode: two distinct source files that
generate the identical destination name are BOTH counted as would-be-renamed
in a dry run (`renamed = 2`, `skipped = 0`), because the collision check
consults the unchanged filesystem — the second file is not skipped. -/
theorem claim_C6_cex :
    ("a,1,2,.jpg".toList ≠ "a,1.0,2,.jpg".toList)
    ∧ (Option.map (fun i => generate_new_filename i true)
          (parse_filename ("a,1,2,.jpg".toList))
        = Option.map (fun i => generate_new_filename i true)
          (parse_filename ("a,1.0,2,.jpg".toList)))
    ∧ (runWalk true true ["d/a,1,2,.jpg".toList, "d/a,1.0,2,.jpg".toList]
        [⟨"d".toList, "a,1,2,.jpg".toList, true⟩,
         ⟨"d".toList, "a,1.0,2,.jpg".toList, true⟩]).2
      = ⟨2, 2, 0⟩ := by decide

/-- C6 amended: (1) in both modes, an eligible file whose generated
destination already exists in the filesystem and differs from its source path
is skipped and its filesystem entry is left untouched — an existing file is
never overwritten; (2) in execute mode, when two source files generate the
identical destination name (not already present) and the first rename
succeeds, the first is renamed and the second is skipped.  (In dry-run mode
both files are merely previewed, see the counterexample.) -/
theorem claim_C6_collision_amended :
    (∀ (dry stS : Bool) (fs : List (List Char)) (st : RunStats) (f : FileEntry)
        (info : ParsedImageInfo),
        parse_filename f.name = some info →
        joinPath f.parent (generate_new_filename info stS) ∈ fs →
        joinPath f.parent (generate_new_filename info stS) ≠ joinPath f.parent f.name →
        processFile dry stS (fs, st) f
          = (fs, ⟨st.total + 1, st.renamed, st.skipped + 1⟩))
    ∧ (∀ (stS : Bool) (fs : List (List Char)) (f1 f2 : FileEntry)
        (info1 info2 : ParsedImageInfo),
        parse_filename f1.name = some info1 →
        parse_filename f2.name = some info2 →
        f1.renameOk = true →
        joinPath f1.parent (generate_new_filename info1 stS)
          = joinPath f2.parent (generate_new_filename info2 stS) →
        joinPath f1.parent (generate_new_filename info1 stS) ∉ fs →
        joinPath f2.parent (generate_new_filename info2 stS) ≠ joinPath f2.parent f2.name →
        (runWalk false stS fs [f1, f2]).2 = ⟨2, 1, 1⟩) := by
  constructor
  · intro dry stS fs st f info hp hin hne
    exact processFile_collision hp hin hne
  · intro stS fs f1 f2 info1 info2 hp1 hp2 hok hd hnotin hne2
    show (processFile false stS (processFile false stS (fs, ⟨0, 0, 0⟩) f1) f2).2
      = ⟨2, 1, 1⟩
    rw [processFile_rename hp1 (fun hcon => hnotin hcon.1) hok]
    rw [processFile_collision hp2 (by rw [← hd]; exact List.mem_cons_self ..) hne2]

/-- Witness for C6 amended: a concrete collision skip, and a concrete
execute-mode pair with identical destinations where the first is renamed and
the second skipped. -/
theorem claim_C6_witness :
    (processFile false true
        ([joinPath ("d".toList)
            (generate_new_filename ⟨"a".toList, ⟨1, 0⟩, ⟨2, 0⟩, true, ".jpg".toList⟩ true)],
          ⟨0, 0, 0⟩)
        ⟨"d".toList, "a,1,2,.jpg".toList, true⟩
      = ([joinPath ("d".toList)
            (generate_new_filename ⟨"a".toList, ⟨1, 0⟩, ⟨2, 0⟩, true, ".jpg".toList⟩ true)],
          ⟨1, 0, 1⟩))
    ∧ (runWalk false true []
        [⟨"d".toList, "a,1,2,.jpg".toList, true⟩,
         ⟨"d".toList, "a,1.0,2,.jpg".toList, true⟩]).2 = ⟨2, 1, 1⟩ := by
  constructor
  · exact claim_C6_collision_amended.1 false true _ ⟨0, 0, 0⟩ _
      ⟨"a".toList, ⟨1, 0⟩, ⟨2, 0⟩, true, ".jpg".toList⟩
      (by decide) (by decide) (by decide)
  · exact claim_C6_collision_amended.2 true [] _ _
      ⟨"a".toList, ⟨1, 0⟩, ⟨2, 0⟩, true, ".jpg".toList⟩
      ⟨"a".toList, ⟨10, 1⟩, ⟨2, 0⟩, true, ".jpg".toList⟩
      (by decide) (by decide) (by decide) (by decide) (by decide) (by decide)

/-- C8: a missing root aborts the run with no work done; an existing root
runs the whole walk; in execute mode a file whose rename fails is caught,
counted as skipped, leaves the filesystem unchanged, and the traversal
continues with the remaining files. -/
theorem claim_C8_error_containment :
    (∀ (dry stS : Bool) (fs : List (List Char)) (files : List FileEntry),
        rename_images_in_folder false dry stS fs files = none)
    ∧ (∀ (dry stS : Bool) (fs : List (List Char)) (files : List FileEntry),
        rename_images_in_folder true dry stS fs files = some (runWalk dry stS fs files))
    ∧ (∀ (stS : Bool) (fs : List (List Char)) (st : RunStats) (f : FileEntry)
        (info : ParsedImageInfo),
        parse_filename f.name = some info →
        f.renameOk = false →
        ¬(joinPath f.parent (generate_new_filename info stS) ∈ fs ∧
          joinPath f.parent (generate_new_filename info stS) ≠ joinPath f.parent f.name) →
        processFile false stS (fs, st) f
          = (fs, ⟨st.total + 1, st.renamed, st.skipped + 1⟩))
    ∧ (∀ (dry stS : Bool) (acc : List (List Char) × RunStats)
        (l1 l2 : List FileEntry),
        runWalkFrom dry stS acc (l1 ++ l2)
          = runWalkFrom dry stS (runWalkFrom dry stS acc l1) l2) := by
  refine ⟨fun dry stS fs files => rfl, fun dry stS fs files => rfl, ?_,
    fun dry stS acc l1 l2 => List.foldl_append ..⟩
  intro stS fs st f info hp hok hncol
  exact processFile_fail hp hncol hok

/-- Witness for C8: each conjunct at concrete inputs, in particular a file
whose rename fails is skipped with the filesystem unchanged. -/
theorem claim_C8_witness :
    rename_images_in_folder false false true [] [] = none
    ∧ rename_images_in_folder true false true [] [] = some (runWalk false true [] [])
    ∧ processFile false true ([], ⟨0, 0, 0⟩) ⟨"d".toList, "a,1,2,.jpg".toList, false⟩
        = ([], ⟨1, 0, 1⟩)
    ∧ runWalkFrom false true ([], ⟨0, 0, 0⟩)
        ([⟨"d".toList, "a,1,2,.jpg".toList, false⟩]
          ++ [⟨"d".toList, "b,3,4,.jpg".toList, true⟩])
      = runWalkFrom false true
          (runWalkFrom false true ([], ⟨0, 0, 0⟩)
            [⟨"d".toList, "a,1,2,.jpg".toList, false⟩])
          [⟨"d".toList, "b,3,4,.jpg".toList, true⟩] := by
  refine ⟨claim_C8_error_containment.1 false true [] [],
    claim_C8_error_containment.2.1 false true [] [], ?_,
    claim_C8_error_containment.2.2.2 false true ([], ⟨0, 0, 0⟩) _ _⟩
  exact claim_C8_error_containment.2.2.1 true [] ⟨0, 0, 0⟩
    ⟨"d".toList, "a,1,2,.jpg".toList, false⟩
    ⟨"a".toList, ⟨1, 0⟩, ⟨2, 0⟩, true, ".jpg".toList⟩
    (by decide) rfl (by decide)

end RenameImg
